import Mathlib

/-
Verification development for the obs2web static site generator.

The embedding below translates the algorithmic core of the repository:
the wikilink rewriter (src/content.rs, rewrite_links), the note tree
builder (src/template.rs, initiate_nodes_tree / find_or_create_node),
the tag accumulation and the render/write tail of process_markdown_file
(src/content.rs).

Strings are modelled as lists of characters.  Rust operates on UTF-8
byte indices for slicing while the rewriter also uses character
positions for lookahead, so byte arithmetic is modelled explicitly via
Char.utf8Size.  A Rust string slice content[a..b] panics when a or b is
not a character boundary or is out of range; such operations are
modelled as Option, with none standing for a panic.
-/

set_option maxHeartbeats 1000000

namespace Obs2Web

/-- Drop the first n BYTES from a character list.  Models the Rust
slice suffix content[n..]: returns none when n is not a character
boundary or exceeds the total byte length (a panic in Rust). -/
def dropBytes : List Char → Nat → Option (List Char)
  | s, 0 => some s
  | [], _ + 1 => none
  | c :: cs, n + 1 =>
    if n + 1 < c.utf8Size then none else dropBytes cs (n + 1 - c.utf8Size)

/-- Take the first n BYTES from a character list.  none when n is not a
character boundary of the list or exceeds its byte length. -/
def takeBytes : List Char → Nat → Option (List Char)
  | _, 0 => some []
  | [], _ + 1 => none
  | c :: cs, n + 1 =>
    if n + 1 < c.utf8Size then none
    else match takeBytes cs (n + 1 - c.utf8Size) with
      | none => none
      | some t => some (c :: t)

/-- Models the Rust string slice content[a..b] (byte indices): none is
the panic case (a > b, non-boundary index, or out of range). -/
def byteSlice (s : List Char) (a b : Nat) : Option (List Char) :=
  if a ≤ b then
    match dropBytes s a with
    | none => none
    | some t => takeBytes t (b - a)
  else none

/-- Scanner state of rewrite_links: the output buffer new_content, the
cursor last_index (a byte index), the two mode flags and the captured
span text link_text. -/
structure RState where
  out : List Char
  last : Nat
  inLink : Bool
  inAsset : Bool
  txt : List Char
deriving Repr, DecidableEq

/-- Models link_text.to_lowercase().replace(" ", "-") from the close
branch of rewrite_links.  Char.toLower agrees with the Rust lowercase
mapping on every character exercised here (ASCII letters are mapped,
characters without an upper-case form are unchanged). -/
def slug (t : List Char) : List Char :=
  (t.map Char.toLower).map (fun c => if c = ' ' then '-' else c)

/-- Models format!("<a href=\"{}.html\">{}</a>", link_slug, link_text). -/
def htmlAnchor (t : List Char) : List Char :=
  "<a href=\"".data ++ slug t ++ ".html\">".data ++ t ++ "</a>".data

/-- Models format!("<img src=\"{}\">", link_text). -/
def htmlImage (t : List Char) : List Char :=
  "<img src=\"".data ++ t ++ "\">".data

/-- One iteration of the for loop of rewrite_links, at byte index i and
current character c.  s is the full input, because the lookahead
content.chars().nth(i + 1) indexes the whole character sequence of the
input by CHARACTER position i + 1 even though i is a BYTE index. -/
def step (s : List Char) (st : RState) (i : Nat) (c : Char) : Option RState :=
  if c = '[' ∧ s.get? (i + 1) = some '[' then
    if st.inLink = false ∧ st.inAsset = false then
      match byteSlice s st.last i with
      | none => none
      | some seg => some { st with inLink := true, out := st.out ++ seg, last := i }
    else some st
  else if c = '!' ∧ s.get? (i + 1) = some '[' ∧ s.get? (i + 2) = some '[' then
    if st.inLink = false ∧ st.inAsset = false then
      match byteSlice s st.last i with
      | none => none
      | some seg => some { st with inAsset := true, out := st.out ++ seg, last := i }
    else some st
  else if c = ']' ∧ s.get? (i + 1) = some ']' then
    if st.inLink then
      some { st with inLink := false, out := st.out ++ htmlAnchor st.txt,
                     txt := [], last := i + 2 }
    else if st.inAsset then
      some { st with inAsset := false, out := st.out ++ htmlImage st.txt,
                     txt := [], last := i + 2 }
    else some st
  else if st.inLink = true ∨ st.inAsset = true then
    if c ≠ '[' ∧ c ≠ '!' then some { st with txt := st.txt ++ [c] }
    else some st
  else some st

/-- The for loop over content.char_indices(): cs is the remaining
character list and i the byte index of its first character. -/
def scanLoop (s : List Char) : Nat → List Char → RState → Option RState
  | _, [], st => some st
  | i, c :: cs, st =>
    match step s st i c with
    | none => none
    | some st2 => scanLoop s (i + c.utf8Size) cs st2

/-- Initial scanner state of rewrite_links. -/
def initState : RState := { out := [], last := 0, inLink := false, inAsset := false, txt := [] }

/-- rewrite_links from src/content.rs on a character list: run the scan
loop, then append the verbatim tail content[last_index..].  none models
a panic of a Rust string slice. -/
def rewrite_links (s : List Char) : Option (List Char) :=
  match scanLoop s 0 s initState with
  | none => none
  | some st =>
    match dropBytes s st.last with
    | none => none
    | some tail => some (st.out ++ tail)

/-- String-level wrapper of rewrite_links. -/
def rewrite (s : String) : Option String :=
  (rewrite_links s.data).map List.asString

/-- Does the character list start with the given pattern? -/
def startsWithChars : List Char → List Char → Bool
  | [], _ => true
  | _ :: _, [] => false
  | p :: ps, c :: cs => p = c && startsWithChars ps cs

/-- Does the pattern occur as a contiguous subsequence? -/
def hasSeq (pat : List Char) : List Char → Bool
  | [] => startsWithChars pat []
  | c :: cs => startsWithChars pat (c :: cs) || hasSeq pat cs

/-- The input contains none of the marker sequences of the rewriter. -/
def noMarkers (s : String) : Bool :=
  !(hasSeq "[[".data s.data || hasSeq "![[".data s.data || hasSeq "]]".data s.data)

/-- C1: the claim states that rewrite is the identity on every input
free of the sequences leftBracketPair, bangLeftBracketPair and
rightBracketPair.  The code refutes it: the lookahead
content.chars().nth(i + 1) confuses the byte index i with a character
position, so on a non ASCII input the rewriter can fabricate a span out
of isolated brackets.  The marker free input below is rewritten to a
different string. -/
theorem C1_plain_text_divergence :
    noMarkers "é[a[é]bc]x" = true ∧
    rewrite "é[a[é]bc]x" = some "é<a href=\"aé.html\">aé</a>c]x" ∧
    rewrite "é[a[é]bc]x" ≠ some "é[a[é]bc]x" := by
  refine ⟨by decide, by decide, by decide⟩

/-- C2: the claim states that rewrite is total and panic free on
arbitrary input.  The code refutes it: on the input below the close
transition sets last_index to i + 2 where the following character is
two bytes wide, so the final slice content[last_index..] falls on a
non boundary byte and the Rust program panics (modelled as none). -/
theorem C2_panic_input : rewrite "[[é]é]" = none := by decide

/-- C5: the claim states that rewrite never errors on an input with an
unclosed opening marker.  The code refutes it: the input below opens a
second span from the Outside state at its final double bracket marker,
never closes it, and the verbatim flush performed at that opening slices
the input at a stale non boundary last_index, a panic (modelled as
none).  On the ASCII example of the spec the rewriter indeed emits no
closing anchor and no image markup. -/
theorem C5_unclosed_panic :
    rewrite "[[é]é][[x[" = none ∧
    rewrite "text [[unclosed" = some "text [[unclosed" ∧
    hasSeq "</a>".data "text [[unclosed".data = false ∧
    hasSeq "<img".data "text [[unclosed".data = false := by
  refine ⟨by decide, by decide, by decide, by decide⟩

/-- Modelled from the claim wording of C3: slug(T) is T lower-cased
with every literal space replaced by a hyphen and no other change. -/
def slugSpec (t : List Char) : List Char :=
  (t.map Char.toLower).map (fun c => if c = ' ' then '-' else c)

/-- Modelled from the claim wording of C3: the emitted anchor markup
with href slug(T).html and visible text T. -/
def anchorSpec (t : List Char) : List Char :=
  "<a href=\"".data ++ slugSpec t ++ ".html\">".data ++ t ++ "</a>".data

/-- Modelled from the claim wording of C4: an image tag whose src
attribute is the literal captured text T. -/
def imgSpec (t : List Char) : List Char :=
  "<img src=\"".data ++ t ++ "\">".data

/-- C3: whenever the scanner closes a link span (state InLink, current
character a right bracket whose lookahead is a right bracket), the
output is extended by exactly the anchor described by the claim, the
captured text is cleared and the cursor skips the closing pair; and the
concrete example of the spec rewrites as stated. -/
theorem C3_link_anchor :
    (∀ (s : List Char) (st : RState) (i : Nat),
      st.inLink = true → s.get? (i + 1) = some ']' →
      step s st i ']' = some { st with inLink := false, out := st.out ++ anchorSpec st.txt, txt := [], last := i + 2 }) ∧
    rewrite "See [[My Note]] for more" =
      some "See <a href=\"my-note.html\">My Note</a> for more" := by
  constructor
  · intro s st i hL hA
    unfold step
    rw [if_neg (fun h => absurd h.1 (by decide)),
        if_neg (fun h => absurd h.1 (by decide)),
        if_pos ⟨rfl, hA⟩, hL]
    rfl
  · decide

/-- Witness for C3 at a concrete closing state. -/
theorem C3_link_anchor_witness :
    step "]]".data { out := [], last := 0, inLink := true, inAsset := false, txt := ['a'] } 0 ']' =
      some { out := anchorSpec ['a'], last := 2, inLink := false, inAsset := false, txt := [] } :=
  C3_link_anchor.1 "]]".data
    { out := [], last := 0, inLink := true, inAsset := false, txt := ['a'] } 0 rfl rfl

/-- C4: whenever the scanner closes an asset span (state InAsset, not
InLink, current character a right bracket whose lookahead is a right
bracket), the output is extended by exactly the image tag described by
the claim, with the literal captured text as src; and the concrete
example of the spec rewrites as stated. -/
theorem C4_asset_image :
    (∀ (s : List Char) (st : RState) (i : Nat),
      st.inLink = false → st.inAsset = true → s.get? (i + 1) = some ']' →
      step s st i ']' = some { st with inAsset := false, out := st.out ++ imgSpec st.txt, txt := [], last := i + 2 }) ∧
    rewrite "![[diagram.png]]" = some "<img src=\"diagram.png\">" := by
  constructor
  · intro s st i hL hA hN
    unfold step
    rw [if_neg (fun h => absurd h.1 (by decide)),
        if_neg (fun h => absurd h.1 (by decide)),
        if_pos ⟨rfl, hN⟩, hL, hA]
    rfl
  · decide

/-- Witness for C4 at a concrete closing state. -/
theorem C4_asset_image_witness :
    step "]]".data { out := [], last := 0, inLink := false, inAsset := true, txt := ['a'] } 0 ']' =
      some { out := imgSpec ['a'], last := 2, inLink := false, inAsset := false, txt := [] } :=
  C4_asset_image.1 "]]".data
    { out := [], last := 0, inLink := false, inAsset := true, txt := ['a'] } 0 rfl rfl rfl

/-- One emitted page, from src/domain.rs.  The PathBuf field is
modelled as the string the code extracts from it with to_str. -/
structure Note where
  title : String
  path : String
deriving Repr, DecidableEq

/-- One level of the navigation tree, from src/domain.rs. -/
inductive Node where
  | mk : List Node → String → List Note → Node
deriving Repr

/-- The child list of a tree node. -/
def Node.nodes : Node → List Node
  | .mk ns _ _ => ns

/-- The folder label of a tree node. -/
def Node.title : Node → String
  | .mk _ t _ => t

/-- The notes stored directly at a tree node. -/
def Node.notes : Node → List Note
  | .mk _ _ xs => xs

/-- Models str::split on the slash separator: splits a character list
into the (always nonempty) list of slash separated components. -/
def splitSlash : List Char → List (List Char)
  | [] => [[]]
  | c :: cs =>
    match splitSlash cs with
    | [] => [[]]
    | w :: ws => if c = '/' then [] :: w :: ws else (c :: w) :: ws

/-- Remove a literal character prefix, or none when it does not match. -/
def dropPrefixChars : List Char → List Char → Option (List Char)
  | [], p => some p
  | _ :: _, [] => none
  | a :: pr, b :: bs => if a = b then dropPrefixChars pr bs else none

/-- Models Path::strip_prefix(output_dir) followed by unwrap on the
note paths of this program (plain slash separated relative paths):
none models the unwrap panic when the prefix does not match. -/
def stripPrefixPath (pre p : String) : Option String :=
  if p = pre then some "" else
    match dropPrefixChars (pre.data ++ ['/']) p.data with
    | none => none
    | some rest => some rest.asString

/-- The child of find_or_create_node: the first child whose title
equals the component, or a fresh empty node with that title when no
child matches (the node that the code pushes before descending). -/
def childWithTitle : List Node → String → Node
  | [], p => Node.mk [] p []
  | n :: rest, p => if n.title = p then n else childWithTitle rest p

/-- Writing back the updated child: replace the first child whose
title matches, or append the new child at the end (the push of
find_or_create_node, preserving first seen order). -/
def setChild : List Node → String → Node → List Node
  | [], _, c => [c]
  | n :: rest, p, c => if n.title = p then c :: rest else n :: setChild rest p c

/-- find_or_create_node from src/template.rs combined with the note
push of its caller, written as a pure update: descend along the folder
chain by lookup-or-create, then append the note to the notes list of
the resolved node. -/
def find_or_create_insert : List String → Note → Node → Node
  | [], note, Node.mk ns t xs => Node.mk ns t (xs ++ [note])
  | p :: ps, note, Node.mk ns t xs =>
    Node.mk (setChild ns p (find_or_create_insert ps note (childWithTitle ns p))) t xs

/-- One iteration of the for_each of initiate_nodes_tree: split the
note path on slashes, pop the file name at the back and the output
root component at the front, strip the output dir prefix from the
stored path, and insert. -/
def insertNote (outputDir : String) (n : Note) (root : Node) : Option Node :=
  match stripPrefixPath outputDir n.path with
  | none => none
  | some p =>
    some (find_or_create_insert
      ((((splitSlash n.path.data).map List.asString).dropLast).drop 1)
      { n with path := p } root)

/-- The fold of initiate_nodes_tree over the note list. -/
def initiateAux : List Note → String → Node → Option Node
  | [], _, root => some root
  | n :: rest, dir, root =>
    match insertNote dir n root with
    | none => none
    | some root2 => initiateAux rest dir root2

/-- initiate_nodes_tree from src/template.rs: fold all notes into a
root node titled with the output dir.  none models the unwrap panic of
strip_prefix. -/
def initiate_nodes_tree (notes : List Note) (outputDir : String) : Option Node :=
  initiateAux notes outputDir (Node.mk [] outputDir [])

/-- C6: building the tree over notes at out/a/b/note1, out/a/note2 and
out/note3 yields a root with a single child a (holding note2 and a
single child b that holds note1) and with note3 directly in the root
notes list; stored paths are rewritten relative to the output root. -/
theorem C6_tree_example :
    initiate_nodes_tree
      [⟨"note1", "out/a/b/note1"⟩, ⟨"note2", "out/a/note2"⟩, ⟨"note3", "out/note3"⟩] "out" =
    some (Node.mk
      [Node.mk [Node.mk [] "b" [⟨"note1", "a/b/note1"⟩]] "a" [⟨"note2", "a/note2"⟩]]
      "out" [⟨"note3", "note3"⟩]) := by
  rfl

/-- Boolean membership in a list of strings. -/
def memStr (x : String) : List String → Bool
  | [] => false
  | y :: ys => (x = y) || memStr x ys

/-- No string occurs twice in the list. -/
def nodupStr : List String → Bool
  | [] => true
  | x :: xs => (!memStr x xs) && nodupStr xs

mutual

/-- Every level of the tree has pairwise distinct child titles. -/
def nodeOk : Node → Bool
  | .mk ns _ _ => nodupStr (ns.map Node.title) && nodesOk ns

/-- nodeOk holds for every node of the list. -/
def nodesOk : List Node → Bool
  | [] => true
  | n :: rest => nodeOk n && nodesOk rest

end

lemma memStr_append (x : String) (l : List String) (p : String) :
    memStr x (l ++ [p]) = (memStr x l || decide (x = p)) := by
  induction l with
  | nil => simp [memStr]
  | cons y ys ih => simp [memStr, ih, Bool.or_assoc]

lemma nodupStr_append_new (l : List String) (p : String)
    (h : nodupStr l = true) (hm : memStr p l = false) : nodupStr (l ++ [p]) = true := by
  induction l with
  | nil => simp [nodupStr, memStr]
  | cons x xs ih =>
    simp only [nodupStr, Bool.and_eq_true, Bool.not_eq_true'] at h
    simp only [memStr, Bool.or_eq_false_iff, decide_eq_false_iff_not] at hm
    simp only [List.cons_append, nodupStr, Bool.and_eq_true, Bool.not_eq_true']
    refine ⟨?_, ih h.2 hm.2⟩
    rw [List.append_eq, memStr_append, h.1, Bool.false_or, decide_eq_false_iff_not]
    exact fun hxp => hm.1 hxp.symm

lemma title_find_or_create_insert (ps : List String) (note : Note) (nd : Node) :
    (find_or_create_insert ps note nd).title = nd.title := by
  cases nd with
  | mk ns t xs => cases ps <;> rfl

lemma title_childWithTitle (ns : List Node) (p : String) :
    (childWithTitle ns p).title = p := by
  induction ns with
  | nil => rfl
  | cons n rest ih =>
    unfold childWithTitle
    split
    next h => exact h
    next => exact ih

lemma setChild_titles_found (ns : List Node) (p : String) (c : Node) (hc : c.title = p)
    (hm : memStr p (ns.map Node.title) = true) :
    (setChild ns p c).map Node.title = ns.map Node.title := by
  induction ns with
  | nil => simp [memStr] at hm
  | cons n rest ih =>
    simp only [List.map_cons, memStr, Bool.or_eq_true, decide_eq_true_eq] at hm
    unfold setChild
    split
    next h => simp [List.map_cons, hc, h]
    next h =>
      have hm2 : memStr p (rest.map Node.title) = true := by
        rcases hm with hm | hm
        · exact absurd hm.symm h
        · exact hm
      simp [List.map_cons, ih hm2]

lemma setChild_titles_new (ns : List Node) (p : String) (c : Node) (hc : c.title = p)
    (hm : memStr p (ns.map Node.title) = false) :
    (setChild ns p c).map Node.title = ns.map Node.title ++ [p] := by
  induction ns with
  | nil => simp [setChild, hc]
  | cons n rest ih =>
    simp only [List.map_cons, memStr, Bool.or_eq_false_iff, decide_eq_false_iff_not] at hm
    unfold setChild
    split
    next h => exact absurd h.symm hm.1
    next h => simp [List.map_cons, ih hm.2]

lemma childWithTitle_ok (ns : List Node) (p : String)
    (h : nodesOk ns = true) : nodeOk (childWithTitle ns p) = true := by
  induction ns with
  | nil => simp [childWithTitle, nodeOk, nodesOk, nodupStr]
  | cons n rest ih =>
    simp only [nodesOk, Bool.and_eq_true] at h
    unfold childWithTitle
    split
    next => exact h.1
    next => exact ih h.2

lemma setChild_ok (ns : List Node) (p : String) (c : Node)
    (h : nodesOk ns = true) (hc : nodeOk c = true) : nodesOk (setChild ns p c) = true := by
  induction ns with
  | nil => simp [setChild, nodesOk, hc]
  | cons n rest ih =>
    simp only [nodesOk, Bool.and_eq_true] at h
    unfold setChild
    split
    next => simp [nodesOk, hc, h.2]
    next => simp [nodesOk, h.1, ih h.2]

lemma find_or_create_insert_ok (ps : List String) (note : Note) :
    ∀ nd : Node, nodeOk nd = true → nodeOk (find_or_create_insert ps note nd) = true := by
  induction ps with
  | nil =>
    intro nd h
    cases nd with
    | mk ns t xs => simpa [find_or_create_insert, nodeOk] using h
  | cons p ps ih =>
    intro nd h
    cases nd with
    | mk ns t xs =>
      simp only [nodeOk, Bool.and_eq_true] at h
      have hcT : (find_or_create_insert ps note (childWithTitle ns p)).title = p := by
        rw [title_find_or_create_insert, title_childWithTitle]
      have hcOk : nodeOk (find_or_create_insert ps note (childWithTitle ns p)) = true :=
        ih _ (childWithTitle_ok ns p h.2)
      simp only [find_or_create_insert, nodeOk, Bool.and_eq_true]
      refine ⟨?_, setChild_ok ns p _ h.2 hcOk⟩
      cases hm : memStr p (ns.map Node.title) with
      | true => rw [setChild_titles_found ns p _ hcT hm]; exact h.1
      | false => rw [setChild_titles_new ns p _ hcT hm]; exact nodupStr_append_new _ _ h.1 hm

lemma initiateAux_ok (notes : List Note) (dir : String) :
    ∀ root nd : Node, nodeOk root = true → initiateAux notes dir root = some nd →
      nodeOk nd = true := by
  induction notes with
  | nil =>
    intro root nd h he
    simp only [initiateAux, Option.some.injEq] at he
    exact he ▸ h
  | cons n rest ih =>
    intro root nd h he
    simp only [initiateAux] at he
    revert he
    cases hin : insertNote dir n root with
    | none => intro he; exact absurd he (by simp)
    | some root2 =>
      intro he
      have hr2 : nodeOk root2 = true := by
        revert hin
        unfold insertNote
        cases stripPrefixPath dir n.path with
        | none => intro hin; exact absurd hin (by simp)
        | some p =>
          intro hin
          simp only [Option.some.injEq] at hin
          exact hin ▸ find_or_create_insert_ok _ _ root h
      exact ih root2 nd hr2 he

/-- C7: every tree produced by initiate_nodes_tree has, at every node
and every level, pairwise distinct child titles: find_or_create_node
descends into an existing child with a matching title and creates a
fresh child only when no title matches, so no two siblings share a
title. -/
theorem C7_sibling_titles_distinct (notes : List Note) (dir : String) (nd : Node)
    (h : initiate_nodes_tree notes dir = some nd) : nodeOk nd = true := by
  have hroot : nodeOk (Node.mk [] dir []) = true := by
    simp [nodeOk, nodesOk, nodupStr]
  exact initiateAux_ok notes dir _ nd hroot h

/-- Witness for C7 on a concrete one note input. -/
theorem C7_sibling_titles_distinct_witness :
    nodeOk (Node.mk [] "out" [⟨"note3", "note3"⟩]) = true :=
  C7_sibling_titles_distinct [⟨"note3", "out/note3"⟩] "out"
    (Node.mk [] "out" [⟨"note3", "note3"⟩]) rfl

/-- The tag accumulator of the pipeline: tag to ordered note list.
The Rust HashMap is modelled as an association list; the claims only
observe per key lists and lookups. -/
abbrev TagMap := List (String × List Note)

/-- Models tags.entry(tag).or_default().push(note.clone()) from
process_markdown_file: append the note to the list of the tag,
creating a fresh singleton list when the tag is absent. -/
def record : TagMap → String → Note → TagMap
  | [], tag, note => [(tag, [note])]
  | (k, l) :: rest, tag, note =>
    if k = tag then (k, l ++ [note]) :: rest else (k, l) :: record rest tag note

/-- The note list of a tag; the empty list when the tag is absent. -/
def getTagList : TagMap → String → List Note
  | [], _ => []
  | (k, l) :: rest, t => if k = t then l else getTagList rest t

/-- The for tag in tag_list loop of process_markdown_file. -/
def registerNote (tagList : List String) (note : Note) (m : TagMap) : TagMap :=
  tagList.foldl (fun acc tag => record acc tag note) m

lemma getTagList_record_same (m : TagMap) (t : String) (n : Note) :
    getTagList (record m t n) t = getTagList m t ++ [n] := by
  induction m with
  | nil => simp [record, getTagList]
  | cons kv rest ih =>
    obtain ⟨k, l⟩ := kv
    unfold record
    split
    next h => simp [getTagList, h]
    next h => simp [getTagList, h, ih]

lemma getTagList_record_other (m : TagMap) (u t : String) (n : Note) (h : t ≠ u) :
    getTagList (record m u n) t = getTagList m t := by
  induction m with
  | nil => simp [record, getTagList, Ne.symm h]
  | cons kv rest ih =>
    obtain ⟨k, l⟩ := kv
    unfold record
    split
    next hk =>
      have hkt : ¬k = t := fun hkt => h (hkt.symm.trans hk)
      simp [getTagList, hkt]
    next hk => simp [getTagList, ih]

lemma getTagList_record_mono (m : TagMap) (u t : String) (x n : Note)
    (h : x ∈ getTagList m t) : x ∈ getTagList (record m u n) t := by
  by_cases hu : t = u
  · subst hu
    rw [getTagList_record_same]
    exact List.mem_append_left _ h
  · rw [getTagList_record_other m u t n hu]
    exact h

lemma mem_registerNote_mono (ts : List String) (n x : Note) (t : String) :
    ∀ m : TagMap, x ∈ getTagList m t → x ∈ getTagList (registerNote ts n m) t := by
  induction ts with
  | nil => intro m h; exact h
  | cons u rest ih =>
    intro m h
    exact ih (record m u n) (getTagList_record_mono m u t x n h)

lemma mem_registerNote (ts : List String) (t : String) (n : Note)
    (h : t ∈ ts) : ∀ m : TagMap, n ∈ getTagList (registerNote ts n m) t := by
  induction ts with
  | nil => cases h
  | cons u rest ih =>
    intro m
    rcases List.mem_cons.mp h with rfl | hm
    · refine mem_registerNote_mono rest n n t (record m t n) ?_
      rw [getTagList_record_same]
      exact List.mem_append_right _ (List.mem_singleton.mpr rfl)
    · exact ih hm (record m u n)

/-- C8: registering a note under its frontmatter tags appends it to
each named tag list at the end (so lists stay in processing order),
creating the list when the tag is new and never deduplicating: with
tags x and y the note lands exactly once in each of the two lists, and
with the tag x declared twice it is appended twice. -/
theorem C8_tag_accumulation (m : TagMap) (x y : String) (n : Note) (hxy : x ≠ y) :
    getTagList (registerNote [x, y] n m) x = getTagList m x ++ [n] ∧
    getTagList (registerNote [x, y] n m) y = getTagList m y ++ [n] ∧
    getTagList (registerNote [x, x] n m) x = getTagList m x ++ [n, n] := by
  refine ⟨?_, ?_, ?_⟩
  · show getTagList (record (record m x n) y n) x = _
    rw [getTagList_record_other _ y x n hxy, getTagList_record_same]
  · show getTagList (record (record m x n) y n) y = _
    rw [getTagList_record_same, getTagList_record_other m x y n (Ne.symm hxy)]
  · show getTagList (record (record m x n) x n) x = _
    rw [getTagList_record_same, getTagList_record_same, List.append_assoc]
    rfl

/-- Witness for C8 at concrete tags and an empty map. -/
theorem C8_tag_accumulation_witness :
    getTagList (registerNote ["x", "y"] ⟨"t", "p"⟩ []) "x" =
      getTagList ([] : TagMap) "x" ++ [⟨"t", "p"⟩] ∧
    getTagList (registerNote ["x", "y"] ⟨"t", "p"⟩ []) "y" =
      getTagList ([] : TagMap) "y" ++ [⟨"t", "p"⟩] ∧
    getTagList (registerNote ["x", "x"] ⟨"t", "p"⟩ []) "x" =
      getTagList ([] : TagMap) "x" ++ [⟨"t", "p"⟩, ⟨"t", "p"⟩] :=
  C8_tag_accumulation [] "x" "y" ⟨"t", "p"⟩ (by decide)

/-- The tail of process_markdown_file (src/content.rs, the part from
the tag registration through rendering, writing and the notes push).
The earlier stages (file read, frontmatter split, link rewrite,
markdown render) are summarized by their results: the already built
note and the optional frontmatter tag list.  The external
collaborators tera.render and fs::write are oracle parameters carrying
their outcome.  The result is the returned outcome together with the
final state of the two accumulators, which in Rust are mutable
references that keep their mutations when the function returns an
error early. -/
def process_markdown_file (fmTags : Option (List String)) (note : Note)
    (renderRes : Except String String) (writeRes : Except String Unit)
    (notes : List Note) (tags : TagMap) :
    Except String Unit × List Note × TagMap :=
  let tags2 : TagMap :=
    match fmTags with
    | some ts => registerNote ts note tags
    | none => tags
  match renderRes with
  | Except.error e => (Except.error e, notes, tags2)
  | Except.ok _ =>
    match writeRes with
    | Except.error e => (Except.error e, notes, tags2)
    | Except.ok _ => (Except.ok (), notes ++ [note], tags2)

/-- C10: when the tail of process_markdown_file returns an error (from
template rendering or from writing the HTML file), the notes list is
returned unchanged, because the note is pushed only after a successful
write, while the tags map keeps the registrations made before
rendering: it equals the fully registered map and still contains the
note under each declared tag. -/
theorem C10_error_keeps_tags (ts : List String) (note : Note)
    (rr : Except String String) (wr : Except String Unit)
    (notes : List Note) (tags : TagMap) (e : String)
    (h : (process_markdown_file (some ts) note rr wr notes tags).1 = Except.error e) :
    (process_markdown_file (some ts) note rr wr notes tags).2.1 = notes ∧
    (process_markdown_file (some ts) note rr wr notes tags).2.2 = registerNote ts note tags ∧
    ∀ t, t ∈ ts →
      note ∈ getTagList (process_markdown_file (some ts) note rr wr notes tags).2.2 t := by
  cases rr with
  | error e2 =>
    exact ⟨rfl, rfl, fun t ht => mem_registerNote ts t note ht tags⟩
  | ok s =>
    cases wr with
    | error e2 =>
      exact ⟨rfl, rfl, fun t ht => mem_registerNote ts t note ht tags⟩
    | ok u => simp [process_markdown_file] at h

/-- Witness for C10 at a concrete failing render. -/
theorem C10_error_keeps_tags_witness :
    (process_markdown_file (some ["x"]) ⟨"t", "p"⟩ (Except.error "render") (Except.ok ())
      [] []).2.1 = [] ∧
    (process_markdown_file (some ["x"]) ⟨"t", "p"⟩ (Except.error "render") (Except.ok ())
      [] []).2.2 = registerNote ["x"] ⟨"t", "p"⟩ [] ∧
    ∀ t, t ∈ ["x"] →
      (⟨"t", "p"⟩ : Note) ∈ getTagList ((process_markdown_file (some ["x"]) ⟨"t", "p"⟩
        (Except.error "render") (Except.ok ()) [] []).2.2) t :=
  C10_error_keeps_tags ["x"] ⟨"t", "p"⟩ (Except.error "render") (Except.ok ()) [] [] "render" rfl

lemma dropBytes_next : ∀ (s : List Char) (i : Nat) (c : Char) (cs : List Char),
    dropBytes s i = some (c :: cs) → dropBytes s (i + c.utf8Size) = some cs := by
  intro s
  induction s with
  | nil =>
    intro i c cs h
    cases i with
    | zero => simp [dropBytes] at h
    | succ n => simp [dropBytes] at h
  | cons d ds ih =>
    intro i c cs h
    cases i with
    | zero =>
      simp only [dropBytes, Option.some.injEq, List.cons.injEq] at h
      obtain ⟨rfl, rfl⟩ := h
      have hpos : 0 < d.utf8Size := Char.utf8Size_pos d
      obtain ⟨k, hk⟩ : ∃ k, d.utf8Size = k + 1 := ⟨d.utf8Size - 1, by omega⟩
      rw [Nat.zero_add, hk]
      simp only [dropBytes]
      rw [if_neg (by omega), hk, Nat.sub_self]
      simp [dropBytes]
    | succ n =>
      simp only [dropBytes] at h
      by_cases hlt : n + 1 < d.utf8Size
      · rw [if_pos hlt] at h
        exact absurd h (by simp)
      · rw [if_neg hlt] at h
        have ih2 := ih (n + 1 - d.utf8Size) c cs h
        have h1 : n + 1 + c.utf8Size = (n + c.utf8Size) + 1 := by omega
        rw [h1]
        simp only [dropBytes]
        rw [if_neg (by omega)]
        have h2 : n + c.utf8Size + 1 - d.utf8Size = n + 1 - d.utf8Size + c.utf8Size := by omega
        rw [h2]
        exact ih2

/-- Invariant of the scan loop: the two mode flags are never both set,
and while a span is open the cursor last_index sits on a character
boundary of the input whose character is the start of the opening
marker (a left bracket for links, a bang for assets). -/
def SpanInv (s : List Char) (st : RState) : Prop :=
  (st.inLink && st.inAsset) = false ∧
  ((st.inLink || st.inAsset) = true →
    ∃ t, dropBytes s st.last = some t ∧ (t.head? = some '[' ∨ t.head? = some '!'))

lemma step_inv (s : List Char) (st st2 : RState) (i : Nat) (c : Char) (rest : List Char)
    (hdrop : dropBytes s i = some (c :: rest))
    (hinv : SpanInv s st) (hstep : step s st i c = some st2) : SpanInv s st2 := by
  obtain ⟨hflags, hmark⟩ := hinv
  unfold step at hstep
  split_ifs at hstep with h1 h2 h3 h4 h5 h6 h7 h8 h9
  · -- open link, flags clear
    revert hstep
    cases hbs : byteSlice s st.last i with
    | none => intro hstep; simp at hstep
    | some seg =>
      intro hstep
      simp only [Option.some.injEq] at hstep
      subst hstep
      refine ⟨by simp [h2.2], fun _ => ⟨c :: rest, hdrop, ?_⟩⟩
      left
      simp [h1.1]
  · -- open link marker seen while a span is already open
    simp only [Option.some.injEq] at hstep
    subst hstep
    exact ⟨hflags, hmark⟩
  · -- open asset, flags clear
    revert hstep
    cases hbs : byteSlice s st.last i with
    | none => intro hstep; simp at hstep
    | some seg =>
      intro hstep
      simp only [Option.some.injEq] at hstep
      subst hstep
      refine ⟨by simp [h4.1], fun _ => ⟨c :: rest, hdrop, ?_⟩⟩
      right
      simp [h3.1]
  · -- open asset marker seen while a span is already open
    simp only [Option.some.injEq] at hstep
    subst hstep
    exact ⟨hflags, hmark⟩
  · -- close while in link state
    simp only [Option.some.injEq] at hstep
    subst hstep
    have hA : st.inAsset = false := by
      cases hA : st.inAsset
      · rfl
      · rw [h6, hA] at hflags; exact absurd hflags (by decide)
    exact ⟨by simp, fun hcontra => absurd hcontra (by simp [hA])⟩
  · -- close while in asset state
    simp only [Option.some.injEq] at hstep
    subst hstep
    have hL : st.inLink = false := by
      cases hL : st.inLink
      · rfl
      · exact absurd hL h6
    exact ⟨by simp, fun hcontra => absurd hcontra (by simp [hL])⟩
  · -- closing marker outside any span
    simp only [Option.some.injEq] at hstep
    subst hstep
    exact ⟨hflags, hmark⟩
  · -- ordinary character inside a span: only link_text changes
    simp only [Option.some.injEq] at hstep
    subst hstep
    exact ⟨hflags, hmark⟩
  · -- bracket or bang inside a span: state unchanged
    simp only [Option.some.injEq] at hstep
    subst hstep
    exact ⟨hflags, hmark⟩
  · -- ordinary character outside any span
    simp only [Option.some.injEq] at hstep
    subst hstep
    exact ⟨hflags, hmark⟩

lemma scanLoop_inv (s : List Char) : ∀ (cs : List Char) (i : Nat) (st st2 : RState),
    dropBytes s i = some cs → SpanInv s st → scanLoop s i cs st = some st2 →
    SpanInv s st2 := by
  intro cs
  induction cs with
  | nil =>
    intro i st st2 _ hinv hloop
    simp only [scanLoop, Option.some.injEq] at hloop
    exact hloop ▸ hinv
  | cons c rest ih =>
    intro i st st2 hdrop hinv hloop
    simp only [scanLoop] at hloop
    revert hloop
    cases hstep : step s st i c with
    | none => intro hloop; simp at hloop
    | some st1 =>
      intro hloop
      exact ih (i + c.utf8Size) st1 st2 (dropBytes_next s i c rest hdrop)
        (step_inv s st st1 i c rest hdrop hinv hstep) hloop

/-- C9: on every input accepted by the rewriter whose scan ends inside
a still open span, the output is the flushed prefix followed by the
raw input tail from the byte position of the last opening marker (a
left bracket or a bang): the absorbed characters are re-emitted, never
dropped.  In particular the unterminated example of the spec is
returned verbatim. -/
theorem C9_unclosed_reemit :
    (∀ (s r : List Char) (st : RState),
      scanLoop s 0 s initState = some st →
      (st.inLink || st.inAsset) = true →
      rewrite_links s = some r →
      ∃ t, dropBytes s st.last = some t ∧ r = st.out ++ t ∧
        (t.head? = some '[' ∨ t.head? = some '!')) ∧
    rewrite "text [[unclosed" = some "text [[unclosed" := by
  constructor
  · intro s r st hscan hopen hr
    have hinv0 : SpanInv s initState := by
      refine ⟨by decide, fun hcontra => absurd hcontra (by decide)⟩
    have hzero : dropBytes s 0 = some s := by cases s <;> rfl
    have hinv := scanLoop_inv s s 0 initState st hzero hinv0 hscan
    obtain ⟨t, hd, hhead⟩ := hinv.2 hopen
    refine ⟨t, hd, ?_, hhead⟩
    unfold rewrite_links at hr
    rw [hscan] at hr
    simp only at hr
    rw [hd] at hr
    simp only [Option.some.injEq] at hr
    exact hr.symm
  · decide

/-- Witness for C9 at a concrete unterminated input. -/
theorem C9_unclosed_reemit_witness :
    ∃ t, dropBytes "a[[b".data (RState.mk ['a'] 1 true false ['b']).last = some t ∧
      "a[[b".data = (RState.mk ['a'] 1 true false ['b']).out ++ t ∧
      (t.head? = some '[' ∨ t.head? = some '!') :=
  C9_unclosed_reemit.1 "a[[b".data "a[[b".data (RState.mk ['a'] 1 true false ['b'])
    (by decide) (by decide) (by decide)

end Obs2Web
